import Mathlib

/-!
Verification of the pod2_prover wildcard deduction engine
(`src/wildcard/engine.rs`, `src/wildcard/types.rs`, `src/types.rs`).

The engine is an ascent (Datalog) program: relations seeded by pushed facts
and a target, closed under a fixed rule set.  We embed the data model as
inductive types and the ascent relations as inductively defined predicates
(their least-model semantics), parameterised by a seed relation so that the
persistent relation state across `run` calls is also captured.
-/

/-- Modelled from the spec: `Origin` (pod2 frontend, external collaborator) is an
opaque identifier for a data container, comparable for equality.  In the source it
is `Origin(PodClass, PodId)`; both components are opaque here. -/
structure Origin where
  pod_class : Nat
  pod_id : Nat
deriving DecidableEq, Repr

/-- Embedding of `AnchoredKey(Origin, String)` from pod2 frontend: a field name scoped to a
specific container. -/
structure AnchoredKey where
  origin : Origin
  key : String
deriving DecidableEq, Repr

/-- Modelled from the spec: pod2 `MiddlewareValue` — canonical integer
representation used for per-element comparison (integers directly, strings via a
hash, booleans as 0/1, containers via their commitment). -/
abbrev MValue : Type := Int

/-- Modelled from the spec: a pod2 middleware `Array` — a committed container
carrying its elements and an externally computed commitment (`commitment().value()`
is the `commit` field here). -/
structure MArray where
  elems : List Int
  commit : Int

/-- Modelled from the spec: a pod2 middleware `Set` — a committed container whose
membership test (`contains`, returning `Result<bool>`, i.e. `Option Bool` here with
`none` for the error case) is an external capability. -/
structure MSet where
  mem : Int → Option Bool
  commit : Int

/-- Modelled from the spec: a pod2 middleware `Dictionary` — a committed container;
only its commitment is consumed by the engine. -/
structure MDict where
  commit : Int

/-- Embedding of `HashableValue` from `src/types.rs`: tagged union of scalars and the three
committed containers. -/
inductive HashableValue where
  | String (s : String)
  | Int (i : Int)
  | Bool (b : Bool)
  | Dictionary (d : MDict)
  | Set (s : MSet)
  | Array (a : MArray)

/-- Embedding of `HashableStatement` from `src/types.rs`. -/
inductive HashableStatement where
  | None
  | ValueOf (k : AnchoredKey) (v : HashableValue)
  | Equal (a b : AnchoredKey)
  | NotEqual (a b : AnchoredKey)
  | Gt (a b : AnchoredKey)
  | Lt (a b : AnchoredKey)
  | Contains (a b : AnchoredKey)
  | NotContains (a b : AnchoredKey)
  | SumOf (a b c : AnchoredKey)
  | ProductOf (a b c : AnchoredKey)
  | MaxOf (a b c : AnchoredKey)

/-- Embedding of `NativeOperation` from pod2 middleware: closed vocabulary of justification
primitives.  The source stores `op as u8`; since the enum-to-u8 cast is injective
we keep the enum itself as the step tag. -/
inductive NativeOperation where
  | None
  | NewEntry
  | CopyStatement
  | EqualFromEntries
  | NotEqualFromEntries
  | GtFromEntries
  | LtFromEntries
  | TransitiveEqualFromStatements
  | GtToNotEqual
  | LtToNotEqual
  | ContainsFromEntries
  | NotContainsFromEntries
  | SumOf
  | ProductOf
  | MaxOf
deriving DecidableEq, Repr

/-- Embedding of `DeductionStep = (u8, Vec<HashableStatement>, HashableStatement)` from
`src/types.rs` (operation tag, premises, conclusion). -/
abbrev DeductionStep : Type := NativeOperation × List HashableStatement × HashableStatement

/-- Embedding of `DeductionChain = Vec<DeductionStep>`. -/
abbrev DeductionChain : Type := List DeductionStep

/-- Embedding of `WildcardId` from `src/wildcard/types.rs`. -/
inductive WildcardId where
  | Concrete (o : Origin)
  | Named (n : String)

/-- Embedding of `WildcardAnchoredKey(WildcardId, String)` from `src/wildcard/types.rs`. -/
structure WildcardAnchoredKey where
  wid : WildcardId
  key : String

/-- Embedding of `WildcardStatement` from `src/wildcard/types.rs`. -/
inductive WildcardStatement where
  | ValueOf (w : WildcardAnchoredKey) (v : HashableValue)
  | Equal (w : WildcardAnchoredKey) (k : AnchoredKey)
  | NotEqual (w : WildcardAnchoredKey) (k : AnchoredKey)
  | Gt (w : WildcardAnchoredKey) (k : AnchoredKey)
  | Lt (w : WildcardAnchoredKey) (k : AnchoredKey)
  | Contains (w : WildcardAnchoredKey) (k : AnchoredKey)

/-- Embedding of `WildcardAnchoredKey::matches` from `src/wildcard/types.rs`: a `Concrete`
wildcard requires origin and field name to agree; a `Named` wildcard only requires
the field name to agree. -/
def WildcardAnchoredKey.matches (w : WildcardAnchoredKey) (concrete : AnchoredKey) : Bool :=
  match w.wid with
  | WildcardId.Concrete origin => origin == concrete.origin && w.key == concrete.key
  | WildcardId.Named _ => w.key == concrete.key

/-- Embedding of `to_value` from `src/wildcard/engine.rs`: canonical per-element representation.
`hs` stands for the external `hash_str` collaborator (hashing of strings into
canonical integers); all results below are proved for every such function. -/
def to_value (hs : String → Int) : HashableValue → Int
  | HashableValue.Int i => i
  | HashableValue.String s => hs s
  | HashableValue.Bool b => if b then 1 else 0
  | HashableValue.Array arr => arr.commit
  | HashableValue.Set set => set.commit
  | HashableValue.Dictionary dict => dict.commit

/-- Embedding of `check_contains` from `src/wildcard/engine.rs`: array containment iterates the
elements comparing canonical values; set containment delegates to the external
membership test with `unwrap_or(false)`; every other container shape is `false`. -/
def check_contains (hs : String → Int) (container contained : HashableValue) : Bool :=
  match container, contained with
  | HashableValue.Array arr, value => arr.elems.contains (to_value hs value)
  | HashableValue.Set set, value => ((set.mem (to_value hs value)).getD false)
  | _, _ => false

/-!
## The ascent program's relations

`known_value` and `known_equal` are pure projections of the pushed fact list
(`known_statement`); the remaining projection relations (`known_gt`, `known_lt`,
`known_neq`, `known_contains`) are populated by the source but consumed by no rule,
so they do not influence any result.  The derived relations `reachable_equal`,
`connected_to_target` and `can_prove` are embedded as inductive predicates — the
least-model semantics of the ascent rules — parameterised by a `seed` relation
standing for the tuples already present in the relation when `run` starts
(ascent relations persist across runs; tuples are never removed).
-/

/-- Rule `known_value(ak, v) <-- known_statement(stmt), if let ValueOf(ak, v) = stmt`. -/
def known_value (f : List HashableStatement) (ak : AnchoredKey) (v : HashableValue) : Prop :=
  HashableStatement.ValueOf ak v ∈ f

/-- Rule `known_equal(ak1, ak2) <-- known_statement(stmt), if let Equal(ak1, ak2) = stmt`. -/
def known_equal (f : List HashableStatement) (ak1 ak2 : AnchoredKey) : Prop :=
  HashableStatement.Equal ak1 ak2 ∈ f

/-- The `reachable_equal` relation of the ascent program, seeded with `seed`:
* base rule: every known `Equal(x, y)` yields `(x, y, [])`;
* reverse base rule: every known `Equal(x, y)` yields `(y, x, [])`;
* step rule: a reachable `(x, y, c)` extends along a known `Equal(y, z)` provided no
  step already in `c` has a conclusion of the form `Equal(_, z)` (the cycle guard),
  appending a `TransitiveEqualFromStatements` step. -/
inductive reachable_equal_s (f : List HashableStatement)
    (seed : AnchoredKey → AnchoredKey → DeductionChain → Prop) :
    AnchoredKey → AnchoredKey → DeductionChain → Prop where
  | seeded {x y : AnchoredKey} {c : DeductionChain} :
      seed x y c → reachable_equal_s f seed x y c
  | base {x y : AnchoredKey} :
      known_equal f x y → reachable_equal_s f seed x y []
  | base_rev {x y : AnchoredKey} :
      known_equal f x y → reachable_equal_s f seed y x []
  | step {x y z : AnchoredKey} {c : DeductionChain} :
      reachable_equal_s f seed x y c →
      known_equal f y z →
      (∀ st ∈ c, ∀ a : AnchoredKey, st.2.2 ≠ HashableStatement.Equal a z) →
      reachable_equal_s f seed x z
        (c ++ [(NativeOperation.TransitiveEqualFromStatements,
                [HashableStatement.Equal x y, HashableStatement.Equal y z],
                HashableStatement.Equal x z)])

/-- The `connected_to_target` relation of the ascent program, seeded with `seed`;
`reach` is the (final) contents of `reachable_equal` read by the Equal rule and
`ts` the contents of `target_statement`.  One constructor per source rule, in
source order. -/
inductive connected_to_target_s (hs : String → Int) (f : List HashableStatement)
    (ts : List WildcardStatement)
    (reach : AnchoredKey → AnchoredKey → DeductionChain → Prop)
    (seed : AnchoredKey → AnchoredKey → DeductionChain → Prop) :
    AnchoredKey → AnchoredKey → DeductionChain → Prop where
  | seeded {x y : AnchoredKey} {c : DeductionChain} :
      seed x y c → connected_to_target_s hs f ts reach seed x y c
  | eq_reach {w : WildcardAnchoredKey} {ck x y : AnchoredKey} {c : DeductionChain} :
      WildcardStatement.Equal w ck ∈ ts →
      reach x y c →
      y = ck →
      connected_to_target_s hs f ts reach seed x y c
  | gt_values {w : WildcardAnchoredKey} {ck found_key match_key : AnchoredKey}
      {v1 v2 : HashableValue} {i1 i2 : Int} :
      WildcardStatement.Gt w ck ∈ ts →
      known_value f found_key v1 →
      known_value f match_key v2 →
      w.matches found_key = true →
      match_key = ck →
      v1 = HashableValue.Int i1 →
      v2 = HashableValue.Int i2 →
      i1 > i2 →
      connected_to_target_s hs f ts reach seed found_key match_key
        [(NativeOperation.GtFromEntries,
          [HashableStatement.ValueOf found_key v1, HashableStatement.ValueOf match_key v2],
          HashableStatement.Gt found_key match_key)]
  | gt_known {w : WildcardAnchoredKey} {ck found_key match_key : AnchoredKey} :
      WildcardStatement.Gt w ck ∈ ts →
      HashableStatement.Gt found_key match_key ∈ f →
      w.matches found_key = true →
      match_key = ck →
      connected_to_target_s hs f ts reach seed found_key match_key []
  | lt_values {w : WildcardAnchoredKey} {ck found_key match_key : AnchoredKey}
      {v1 v2 : HashableValue} {i1 i2 : Int} :
      WildcardStatement.Lt w ck ∈ ts →
      known_value f found_key v1 →
      known_value f match_key v2 →
      w.matches found_key = true →
      match_key = ck →
      v1 = HashableValue.Int i1 →
      v2 = HashableValue.Int i2 →
      i1 < i2 →
      connected_to_target_s hs f ts reach seed found_key match_key
        [(NativeOperation.LtFromEntries,
          [HashableStatement.ValueOf found_key v1, HashableStatement.ValueOf match_key v2],
          HashableStatement.Lt found_key match_key)]
  | lt_known {w : WildcardAnchoredKey} {ck found_key match_key : AnchoredKey} :
      WildcardStatement.Lt w ck ∈ ts →
      HashableStatement.Lt found_key match_key ∈ f →
      w.matches found_key = true →
      match_key = ck →
      connected_to_target_s hs f ts reach seed found_key match_key []
  | neq_from_gt {w : WildcardAnchoredKey} {ck found_key match_key : AnchoredKey} :
      WildcardStatement.NotEqual w ck ∈ ts →
      HashableStatement.Gt found_key match_key ∈ f →
      w.matches found_key = true →
      match_key = ck →
      connected_to_target_s hs f ts reach seed found_key match_key
        [(NativeOperation.GtToNotEqual,
          [HashableStatement.Gt found_key match_key],
          HashableStatement.NotEqual found_key match_key)]
  | neq_from_lt {w : WildcardAnchoredKey} {ck found_key match_key : AnchoredKey} :
      WildcardStatement.NotEqual w ck ∈ ts →
      HashableStatement.Lt found_key match_key ∈ f →
      w.matches found_key = true →
      match_key = ck →
      connected_to_target_s hs f ts reach seed found_key match_key
        [(NativeOperation.LtToNotEqual,
          [HashableStatement.Lt found_key match_key],
          HashableStatement.NotEqual found_key match_key)]
  | neq_known {w : WildcardAnchoredKey} {ck found_key match_key : AnchoredKey} :
      WildcardStatement.NotEqual w ck ∈ ts →
      HashableStatement.NotEqual found_key match_key ∈ f →
      w.matches found_key = true →
      match_key = ck →
      connected_to_target_s hs f ts reach seed found_key match_key []
  | contains_values {w : WildcardAnchoredKey} {ck found_key match_key : AnchoredKey}
      {v1 v2 : HashableValue} :
      WildcardStatement.Contains w ck ∈ ts →
      known_value f found_key v1 →
      known_value f match_key v2 →
      w.matches found_key = true →
      match_key = ck →
      check_contains hs v1 v2 = true →
      connected_to_target_s hs f ts reach seed found_key match_key
        [(NativeOperation.ContainsFromEntries,
          [HashableStatement.ValueOf found_key v1, HashableStatement.ValueOf match_key v2],
          HashableStatement.Contains found_key match_key)]
  | contains_known {w : WildcardAnchoredKey} {ck found_key match_key : AnchoredKey} :
      WildcardStatement.Contains w ck ∈ ts →
      HashableStatement.Contains found_key match_key ∈ f →
      w.matches found_key = true →
      match_key = ck →
      connected_to_target_s hs f ts reach seed found_key match_key []

/-- The `can_prove` relation of the ascent program, seeded with `seed`; `conn` is
the (final) contents of `connected_to_target`.  The base case emits directly known
`Equal` facts matching the target with an empty chain; one further constructor per
supported target predicate reads `connected_to_target` (whose second component is a
wildcard in the source rules). -/
inductive can_prove_s (hs : String → Int) (f : List HashableStatement)
    (ts : List WildcardStatement)
    (conn : AnchoredKey → AnchoredKey → DeductionChain → Prop)
    (seed : HashableStatement → DeductionChain → Prop) :
    HashableStatement → DeductionChain → Prop where
  | seeded {s : HashableStatement} {c : DeductionChain} :
      seed s c → can_prove_s hs f ts conn seed s c
  | direct {w : WildcardAnchoredKey} {ck known_key known_concrete : AnchoredKey} :
      WildcardStatement.Equal w ck ∈ ts →
      HashableStatement.Equal known_key known_concrete ∈ f →
      w.matches known_key = true →
      ck = known_concrete →
      can_prove_s hs f ts conn seed (HashableStatement.Equal known_key known_concrete) []
  | via_equal {w : WildcardAnchoredKey} {ck found_key y : AnchoredKey} {c : DeductionChain} :
      WildcardStatement.Equal w ck ∈ ts →
      conn found_key y c →
      w.matches found_key = true →
      can_prove_s hs f ts conn seed (HashableStatement.Equal found_key ck) c
  | via_gt {w : WildcardAnchoredKey} {ck found_key y : AnchoredKey} {c : DeductionChain} :
      WildcardStatement.Gt w ck ∈ ts →
      conn found_key y c →
      w.matches found_key = true →
      can_prove_s hs f ts conn seed (HashableStatement.Gt found_key ck) c
  | via_lt {w : WildcardAnchoredKey} {ck found_key y : AnchoredKey} {c : DeductionChain} :
      WildcardStatement.Lt w ck ∈ ts →
      conn found_key y c →
      w.matches found_key = true →
      can_prove_s hs f ts conn seed (HashableStatement.Lt found_key ck) c
  | via_neq {w : WildcardAnchoredKey} {ck found_key y : AnchoredKey} {c : DeductionChain} :
      WildcardStatement.NotEqual w ck ∈ ts →
      conn found_key y c →
      w.matches found_key = true →
      can_prove_s hs f ts conn seed (HashableStatement.NotEqual found_key ck) c
  | via_contains {w : WildcardAnchoredKey} {ck found_key y : AnchoredKey} {c : DeductionChain} :
      WildcardStatement.Contains w ck ∈ ts →
      conn found_key y c →
      w.matches found_key = true →
      can_prove_s hs f ts conn seed (HashableStatement.Contains found_key ck) c

/-- The empty relation: contents of a derived ascent relation in
`AscentProgram::default()`. -/
def emptyRel3 : AnchoredKey → AnchoredKey → DeductionChain → Prop := fun _ _ _ => False

/-- The empty result relation of `AscentProgram::default()`. -/
def emptyRelS : HashableStatement → DeductionChain → Prop := fun _ _ => False

/-- Embedding of `reachable_equal` computed from a fresh engine (facts `f`, no pre-existing
tuples). -/
def reachable_equal (f : List HashableStatement) :
    AnchoredKey → AnchoredKey → DeductionChain → Prop :=
  reachable_equal_s f emptyRel3

/-- Embedding of `connected_to_target` computed from a fresh engine with facts `f` and single
target `t` (`set_target` stores `vec![(target,)]`). -/
def connected_to_target (hs : String → Int) (f : List HashableStatement)
    (t : WildcardStatement) : AnchoredKey → AnchoredKey → DeductionChain → Prop :=
  connected_to_target_s hs f [t] (reachable_equal f) emptyRel3

/-- Embedding of `can_prove` computed from a fresh engine with facts `f` and single target `t`:
the result set returned by `prove`. -/
def can_prove (hs : String → Int) (f : List HashableStatement) (t : WildcardStatement) :
    HashableStatement → DeductionChain → Prop :=
  can_prove_s hs f [t] (connected_to_target hs f t) emptyRelS

/-!
## Engine session state (`DeductionEngine` / `AscentProgram`)

Ascent relations persist inside `AscentProgram`; `run` closes every relation under
the rules, keeping all tuples already present.  At this level relations are sets of
tuples (ascent deduplicates via indices; the internal vector order is a
representation detail of the ascent crate, not of this repository).
-/

/-- The state of the generated `AscentProgram`: pushed facts, the target vector and
the (persistent) contents of the derived relations. -/
structure AscentProgram where
  known_statement : List HashableStatement
  target_statement : List WildcardStatement
  reachable_equal_rel : AnchoredKey → AnchoredKey → DeductionChain → Prop
  connected_to_target_rel : AnchoredKey → AnchoredKey → DeductionChain → Prop
  can_prove_rel : HashableStatement → DeductionChain → Prop

/-- Embedding of `AscentProgram::default()`: empty fact vector, no target, empty relations. -/
def AscentProgram.default : AscentProgram :=
  { known_statement := []
    target_statement := []
    reachable_equal_rel := emptyRel3
    connected_to_target_rel := emptyRel3
    can_prove_rel := emptyRelS }

/-- Embedding of `AscentProgram::run`: close each relation under the rules, starting from the
tuples already present.  The dependency structure is stratified: `reachable_equal`
reads only itself and the fact projections, `connected_to_target` reads the final
`reachable_equal`, and `can_prove` reads the final `connected_to_target`, so the
joint least fixpoint is this sequential composition. -/
def AscentProgram.run (hs : String → Int) (p : AscentProgram) : AscentProgram :=
  { known_statement := p.known_statement
    target_statement := p.target_statement
    reachable_equal_rel := reachable_equal_s p.known_statement p.reachable_equal_rel
    connected_to_target_rel :=
      connected_to_target_s hs p.known_statement p.target_statement
        (reachable_equal_s p.known_statement p.reachable_equal_rel)
        p.connected_to_target_rel
    can_prove_rel :=
      can_prove_s hs p.known_statement p.target_statement
        (connected_to_target_s hs p.known_statement p.target_statement
          (reachable_equal_s p.known_statement p.reachable_equal_rel)
          p.connected_to_target_rel)
        p.can_prove_rel }

/-- Embedding of `DeductionEngine` from `src/wildcard/engine.rs`: a wrapper around the program
state. -/
structure DeductionEngine where
  prog : AscentProgram

/-- Embedding of `DeductionEngine::new()`. -/
def DeductionEngine.new : DeductionEngine :=
  ⟨AscentProgram.default⟩

/-- Embedding of `DeductionEngine::add_fact`: pushes onto the `known_statement` vector. -/
def DeductionEngine.add_fact (e : DeductionEngine) (fact : HashableStatement) :
    DeductionEngine :=
  ⟨{ e.prog with known_statement := e.prog.known_statement ++ [fact] }⟩

/-- Embedding of `DeductionEngine::set_target`: replaces the target vector with `vec![(target,)]`. -/
def DeductionEngine.set_target (e : DeductionEngine) (target : WildcardStatement) :
    DeductionEngine :=
  ⟨{ e.prog with target_statement := [target] }⟩

/-- Embedding of `DeductionEngine::prove`: runs the fixpoint, then returns (a clone of) the
`can_prove` relation; the mutated engine state is returned alongside the result. -/
def DeductionEngine.prove (hs : String → Int) (e : DeductionEngine) :
    DeductionEngine × (HashableStatement → DeductionChain → Prop) :=
  let prog := e.prog.run hs
  (⟨prog⟩, prog.can_prove_rel)

/-!
## Derived notions used by the claims
-/

/-- Conclusion endpoints of the steps of a chain: for each step whose conclusion is
`Equal(_, z)`, the key `z`.  This is exactly what the step rule's cycle guard
inspects. -/
def chainEnds (c : DeductionChain) : List AnchoredKey :=
  c.filterMap fun st =>
    match st.2.2 with
    | HashableStatement.Equal _ b => some b
    | _ => none

/-- The operand keys of a statement. -/
def statement_keys : HashableStatement → List AnchoredKey
  | HashableStatement.None => []
  | HashableStatement.ValueOf k _ => [k]
  | HashableStatement.Equal a b => [a, b]
  | HashableStatement.NotEqual a b => [a, b]
  | HashableStatement.Gt a b => [a, b]
  | HashableStatement.Lt a b => [a, b]
  | HashableStatement.Contains a b => [a, b]
  | HashableStatement.NotContains a b => [a, b]
  | HashableStatement.SumOf a b c => [a, b, c]
  | HashableStatement.ProductOf a b c => [a, b, c]
  | HashableStatement.MaxOf a b c => [a, b, c]

/-- All anchored keys appearing in a fact list. -/
def factKeys (f : List HashableStatement) : List AnchoredKey :=
  (f.map statement_keys).flatten

/-- Right-hand keys of the `Equal` facts in a fact list (the keys a chain extension
can introduce as a new endpoint). -/
def eqRights (f : List HashableStatement) : List AnchoredKey :=
  f.filterMap fun s =>
    match s with
    | HashableStatement.Equal _ b => some b
    | _ => none

/-- The fact list for a chain of equalities along consecutive keys:
`chainFacts [k0, k1, ..., kn] = [Equal k0 k1, Equal k1 k2, ..., Equal k(n-1) kn]`. -/
def chainFacts : List AnchoredKey → List HashableStatement
  | a :: b :: rest => HashableStatement.Equal a b :: chainFacts (b :: rest)
  | _ => []

/-- Last key of the nonempty path `y :: path`. -/
def pathLast (y : AnchoredKey) : List AnchoredKey → AnchoredKey
  | [] => y
  | z :: rest => pathLast z rest

/-- All consecutive pairs along `y :: path` are known `Equal` facts. -/
def consec (f : List HashableStatement) : AnchoredKey → List AnchoredKey → Prop
  | _, [] => True
  | y, z :: rest => HashableStatement.Equal y z ∈ f ∧ consec f z rest

/-- The transitive-equality chain the step rule accumulates along the path
`x, y, z₁, …, zₘ` (one step per extension, conclusion `Equal x zᵢ`). -/
def extChain (x : AnchoredKey) : AnchoredKey → List AnchoredKey → DeductionChain
  | _, [] => []
  | y, z :: rest =>
      (NativeOperation.TransitiveEqualFromStatements,
        [HashableStatement.Equal x y, HashableStatement.Equal y z],
        HashableStatement.Equal x z) :: extChain x z rest

/-!
## Lemmas about the equality closure
-/

lemma mem_chainEnds {c : DeductionChain} {z : AnchoredKey} :
    z ∈ chainEnds c ↔ ∃ st ∈ c, ∃ a, st.2.2 = HashableStatement.Equal a z := by
  unfold chainEnds
  rw [List.mem_filterMap]
  constructor
  · rintro ⟨st, hst, hm⟩
    refine ⟨st, hst, ?_⟩
    revert hm
    cases h : st.2.2 <;> simp_all
  · rintro ⟨st, hst, a, ha⟩
    exact ⟨st, hst, by rw [ha]⟩

lemma chainEnds_append (c1 c2 : DeductionChain) :
    chainEnds (c1 ++ c2) = chainEnds c1 ++ chainEnds c2 := by
  unfold chainEnds
  exact List.filterMap_append c1 c2 _

lemma chainEnds_trans_step (x y z : AnchoredKey) :
    chainEnds [(NativeOperation.TransitiveEqualFromStatements,
      [HashableStatement.Equal x y, HashableStatement.Equal y z],
      HashableStatement.Equal x z)] = [z] := by
  simp [chainEnds]

lemma extChain_length (x : AnchoredKey) :
    ∀ (y : AnchoredKey) (path : List AnchoredKey), (extChain x y path).length = path.length
  | _, [] => rfl
  | y, z :: rest => by simp [extChain, extChain_length x z rest]

lemma extChain_tags (x : AnchoredKey) :
    ∀ (y : AnchoredKey) (path : List AnchoredKey),
      ∀ st ∈ extChain x y path, st.1 = NativeOperation.TransitiveEqualFromStatements := by
  intro y path
  induction path generalizing y with
  | nil => intro st hst; simp [extChain] at hst
  | cons z rest ih =>
      intro st hst
      rcases List.mem_cons.mp hst with h | h
      · rw [h]
      · exact ih z st h

lemma consec_mono {f g : List HashableStatement} (hfg : ∀ s ∈ f, s ∈ g) :
    ∀ (y : AnchoredKey) (path : List AnchoredKey), consec f y path → consec g y path := by
  intro y path
  induction path generalizing y with
  | nil => intro; trivial
  | cons z rest ih => rintro ⟨h1, h2⟩; exact ⟨hfg _ h1, ih z h2⟩

lemma consec_chainFacts :
    ∀ (y : AnchoredKey) (path : List AnchoredKey), consec (chainFacts (y :: path)) y path := by
  intro y path
  induction path generalizing y with
  | nil => trivial
  | cons z rest ih =>
      refine ⟨by simp [chainFacts], ?_⟩
      exact consec_mono (fun s hs => List.mem_cons_of_mem _ hs) z rest (ih z)

lemma chainFacts_length :
    ∀ (a b : AnchoredKey) (rest : List AnchoredKey),
      (chainFacts (a :: b :: rest)).length = rest.length + 1
  | _, _, [] => rfl
  | a, b, c :: rest => by
      show (HashableStatement.Equal a b :: chainFacts (b :: c :: rest)).length
        = (c :: rest).length + 1
      rw [List.length_cons, chainFacts_length b c rest, List.length_cons]

/-- Extending a reachable triple along a path of known equalities whose nodes are
fresh for the chain: the step rule applies once per path node. -/
lemma reachable_extend (f : List HashableStatement) (path : List AnchoredKey) :
    ∀ (x y : AnchoredKey) (c : DeductionChain),
      reachable_equal f x y c →
      consec f y path →
      path.Nodup →
      (∀ p ∈ path, p ∉ chainEnds c) →
      reachable_equal f x (pathLast y path) (c ++ extChain x y path) := by
  induction path with
  | nil =>
      intro x y c hr _ _ _
      simpa [pathLast, extChain] using hr
  | cons z rest ih =>
      intro x y c hr hcon hnd hfresh
      have hguard : ∀ st ∈ c, ∀ a : AnchoredKey, st.2.2 ≠ HashableStatement.Equal a z := by
        intro st hst a hEq
        exact hfresh z (List.mem_cons_self _ _) (mem_chainEnds.mpr ⟨st, hst, a, hEq⟩)
      have hstep : reachable_equal f x z
          (c ++ [(NativeOperation.TransitiveEqualFromStatements,
            [HashableStatement.Equal x y, HashableStatement.Equal y z],
            HashableStatement.Equal x z)]) :=
        reachable_equal_s.step hr hcon.1 hguard
      have hznr : z ∉ rest := (List.nodup_cons.mp hnd).1
      have hfresh' : ∀ p ∈ rest,
          p ∉ chainEnds (c ++ [(NativeOperation.TransitiveEqualFromStatements,
            [HashableStatement.Equal x y, HashableStatement.Equal y z],
            HashableStatement.Equal x z)]) := by
        intro p hp hmem
        rw [chainEnds_append, chainEnds_trans_step] at hmem
        rcases List.mem_append.mp hmem with h | h
        · exact hfresh p (List.mem_cons_of_mem _ hp) h
        · rw [List.mem_singleton] at h
          exact hznr (h ▸ hp)
      have hres := ih x z _ hstep hcon.2 (List.nodup_cons.mp hnd).2 hfresh'
      simpa [pathLast, extChain, List.append_assoc] using hres

/-- C1: for a chain of `n` known equality facts
`Equal k0 k1, Equal k1 k2, …, Equal k(n-1) kn` over pairwise distinct anchored
keys, proving the wildcard target `Equal(w, kn)` — where `w` matches `k0` —
succeeds: the result set contains `Equal(k0, kn)` justified by a deduction chain of
exactly `n - 1` steps, every one tagged `TransitiveEqualFromStatements`. -/
theorem c1_transitive_equality_chain (hs : String → Int)
    (k0 k1 : AnchoredKey) (rest : List AnchoredKey) (w : WildcardAnchoredKey)
    (hnd : (k0 :: k1 :: rest).Nodup)
    (hm : w.matches k0 = true) :
    ∃ c : DeductionChain,
      can_prove hs (chainFacts (k0 :: k1 :: rest))
        (WildcardStatement.Equal w (pathLast k1 rest))
        (HashableStatement.Equal k0 (pathLast k1 rest)) c ∧
      c.length = (chainFacts (k0 :: k1 :: rest)).length - 1 ∧
      ∀ st ∈ c, st.1 = NativeOperation.TransitiveEqualFromStatements := by
  refine ⟨extChain k0 k1 rest, ?_, ?_, extChain_tags k0 k1 rest⟩
  · have hbase : reachable_equal (chainFacts (k0 :: k1 :: rest)) k0 k1 [] :=
      reachable_equal_s.base (by simp [known_equal, chainFacts])
    have hcon : consec (chainFacts (k0 :: k1 :: rest)) k1 rest :=
      consec_mono (fun s hs' => by simp [chainFacts]; exact Or.inr hs') k1 rest
        (consec_chainFacts k1 rest)
    have hreach := reachable_extend (chainFacts (k0 :: k1 :: rest)) rest k0 k1 [] hbase hcon
      ((List.nodup_cons.mp (List.nodup_cons.mp hnd).2).2)
      (by intro p _ hmem; simp [chainEnds] at hmem)
    rw [List.nil_append] at hreach
    have hconn : connected_to_target hs (chainFacts (k0 :: k1 :: rest))
        (WildcardStatement.Equal w (pathLast k1 rest)) k0 (pathLast k1 rest)
        (extChain k0 k1 rest) :=
      connected_to_target_s.eq_reach (List.mem_singleton.mpr rfl) hreach rfl
    exact can_prove_s.via_equal (List.mem_singleton.mpr rfl) hconn hm
  · rw [extChain_length, chainFacts_length]
    omega

/-- A fixed stand-in for the external `hash_str` collaborator, used only to
instantiate universally quantified results at concrete inputs. -/
def hs0 : String → Int := fun _ => 0

/-- Concrete anchored keys for witnesses. -/
def akA : AnchoredKey := ⟨⟨0, 1⟩, "a"⟩

def akB : AnchoredKey := ⟨⟨0, 2⟩, "b"⟩

def akC : AnchoredKey := ⟨⟨0, 3⟩, "c"⟩

/-- Witness for C1 at the concrete 2-fact chain `Equal akA akB, Equal akB akC`. -/
theorem c1_transitive_equality_chain_witness :
    ∃ c : DeductionChain,
      can_prove hs0 (chainFacts [akA, akB, akC])
        (WildcardStatement.Equal ⟨WildcardId.Named "n", "a"⟩ (pathLast akB [akC]))
        (HashableStatement.Equal akA (pathLast akB [akC])) c ∧
      c.length = (chainFacts [akA, akB, akC]).length - 1 ∧
      ∀ st ∈ c, st.1 = NativeOperation.TransitiveEqualFromStatements :=
  c1_transitive_equality_chain hs0 akA akB [akC] ⟨WildcardId.Named "n", "a"⟩
    (by decide) (by decide)

/-!
## C3: cycle guard keeps endpoints fresh and bounds chain length
-/

lemma mem_eqRights {f : List HashableStatement} {y z : AnchoredKey}
    (h : HashableStatement.Equal y z ∈ f) : z ∈ eqRights f := by
  unfold eqRights
  rw [List.mem_filterMap]
  exact ⟨_, h, rfl⟩

lemma eqRights_subset_factKeys {f : List HashableStatement} :
    ∀ z ∈ eqRights f, z ∈ factKeys f := by
  intro z hz
  unfold eqRights at hz
  rw [List.mem_filterMap] at hz
  obtain ⟨s, hs, hmz⟩ := hz
  unfold factKeys
  rw [List.mem_flatten]
  refine ⟨statement_keys s, List.mem_map_of_mem _ hs, ?_⟩
  revert hmz
  cases s <;> simp [statement_keys]
  intro h
  exact Or.inr h.symm

lemma nodup_sub_length {l L : List AnchoredKey} (hnd : l.Nodup) (hsub : ∀ a ∈ l, a ∈ L) :
    l.length ≤ L.dedup.length := by
  have h1 : l.toFinset.card = l.length := List.toFinset_card_of_nodup hnd
  have h2 : L.dedup.length = L.toFinset.card := (List.card_toFinset L).symm
  rw [← h1, h2]
  apply Finset.card_le_card
  intro a ha
  rw [List.mem_toFinset] at ha ⊢
  exact hsub a ha

/-- Invariant of the equality closure: along any derived chain the step-conclusion
endpoints are pairwise distinct (the cycle guard fires on every extension), each is
the right key of a known `Equal` fact, and every step concludes an `Equal`. -/
lemma reachable_chainEnds {f : List HashableStatement} {x y : AnchoredKey}
    {c : DeductionChain} (h : reachable_equal f x y c) :
    (chainEnds c).Nodup ∧ (∀ e ∈ chainEnds c, e ∈ eqRights f) ∧
    (chainEnds c).length = c.length := by
  induction h with
  | seeded hseed => exact hseed.elim
  | base _ => simp [chainEnds]
  | base_rev _ => simp [chainEnds]
  | step hr he hguard ih =>
      obtain ⟨hnd, hsub, hlen⟩ := ih
      rw [chainEnds_append, chainEnds_trans_step]
      refine ⟨?_, ?_, ?_⟩
      · rw [List.nodup_append]
        refine ⟨hnd, List.nodup_singleton _, ?_⟩
        intro a ha hb
        rw [List.mem_singleton] at hb
        subst hb
        obtain ⟨st, hst, a', ha'⟩ := mem_chainEnds.mp ha
        exact hguard st hst a' ha'
      · intro e he'
        rcases List.mem_append.mp he' with h1 | h1
        · exact hsub e h1
        · rw [List.mem_singleton] at h1
          subst h1
          exact mem_eqRights he
      · simp [hlen]

/-- C3: the equality-closure chains cannot grow forever — the extension rule
only fires on an endpoint fresh for the chain being extended, so the conclusion
endpoints of any reachable chain are pairwise distinct anchored keys of the fact
set, and the chain length is bounded by the number of distinct anchored keys
occurring in the facts. -/
theorem c3_closure_chain_bound (f : List HashableStatement) (x y : AnchoredKey)
    (c : DeductionChain) (h : reachable_equal f x y c) :
    (chainEnds c).Nodup ∧ (chainEnds c).length = c.length ∧
    c.length ≤ (factKeys f).dedup.length := by
  obtain ⟨hnd, hsub, hlen⟩ := reachable_chainEnds h
  refine ⟨hnd, hlen, ?_⟩
  rw [← hlen]
  exact nodup_sub_length hnd fun a ha => eqRights_subset_factKeys a (hsub a ha)

/-- Witness for C3 at the one-step reachable triple over the fact `Equal akA akB`. -/
theorem c3_closure_chain_bound_witness :
    (chainEnds []).Nodup ∧ (chainEnds []).length = ([] : DeductionChain).length ∧
    ([] : DeductionChain).length ≤ (factKeys [HashableStatement.Equal akA akB]).dedup.length :=
  c3_closure_chain_bound [HashableStatement.Equal akA akB] akA akB []
    (reachable_equal_s.base (List.mem_singleton.mpr rfl))

/-!
## C5: known strict-order facts convert to NotEqual with a single tagged step
-/

/-- C5: whenever `Gt(X,Y)` is a known fact, proving the wildcard target
`NotEqual(w, Y)` with `w` matching `X` succeeds with the one-step chain
`GtToNotEqual` whose premise list is `[Gt(X,Y)]` and whose conclusion is
`NotEqual(X,Y)`; symmetrically a known `Lt(X,Y)` yields the one-step
`LtToNotEqual` chain. -/
theorem c5_order_to_notequal (hs : String → Int) (f : List HashableStatement)
    (w : WildcardAnchoredKey) (X Y : AnchoredKey) (hm : w.matches X = true) :
    (HashableStatement.Gt X Y ∈ f →
      can_prove hs f (WildcardStatement.NotEqual w Y) (HashableStatement.NotEqual X Y)
        [(NativeOperation.GtToNotEqual, [HashableStatement.Gt X Y],
          HashableStatement.NotEqual X Y)]) ∧
    (HashableStatement.Lt X Y ∈ f →
      can_prove hs f (WildcardStatement.NotEqual w Y) (HashableStatement.NotEqual X Y)
        [(NativeOperation.LtToNotEqual, [HashableStatement.Lt X Y],
          HashableStatement.NotEqual X Y)]) := by
  constructor
  · intro hGt
    exact can_prove_s.via_neq (List.mem_singleton.mpr rfl)
      (connected_to_target_s.neq_from_gt (List.mem_singleton.mpr rfl) hGt hm rfl) hm
  · intro hLt
    exact can_prove_s.via_neq (List.mem_singleton.mpr rfl)
      (connected_to_target_s.neq_from_lt (List.mem_singleton.mpr rfl) hLt hm rfl) hm

/-- Witness for C5 at the single fact `Gt akA akB`. -/
theorem c5_order_to_notequal_witness :
    can_prove hs0 [HashableStatement.Gt akA akB]
      (WildcardStatement.NotEqual ⟨WildcardId.Named "n", "a"⟩ akB)
      (HashableStatement.NotEqual akA akB)
      [(NativeOperation.GtToNotEqual, [HashableStatement.Gt akA akB],
        HashableStatement.NotEqual akA akB)] :=
  (c5_order_to_notequal hs0 [HashableStatement.Gt akA akB] ⟨WildcardId.Named "n", "a"⟩
    akA akB (by decide)).1 (List.mem_singleton.mpr rfl)

/-!
## C7: a reflexive equality with a premise that was never added

With the single fact `Equal(x, y)` (distinct keys sharing field name "f") the
closure applies its reverse base rule to get `reachable(y, x, [])` and then the
step rule along the fact itself: the cycle guard only inspects the conclusion
endpoints of steps already in the chain (there are none), not the chain's start
key, so `reachable(y, y, [TransitiveEqual(Equal(y,x), Equal(x,y)) -> Equal(y,y)])`
is derived and surfaces in the result set — with premise `Equal(y, x)`, a
statement never added as a fact.
-/

/-- First key of the C7 scenario (field name "f", origin 1). -/
def kxC7 : AnchoredKey := ⟨⟨0, 1⟩, "f"⟩

/-- Second key of the C7 scenario (field name "f", origin 2). -/
def kyC7 : AnchoredKey := ⟨⟨0, 2⟩, "f"⟩

/-- C7: with exactly one known fact `Equal(x, y)` and the Named-wildcard Equal
target with field "f" and concrete side `y`, the result set contains
`Equal(y, y)` justified by a one-step `TransitiveEqualFromStatements` chain whose
premises include `Equal(y, x)` — a statement not present in the fact set. -/
theorem c7_reflexive_equal_phantom_premise :
    can_prove hs0 [HashableStatement.Equal kxC7 kyC7]
      (WildcardStatement.Equal ⟨WildcardId.Named "n", "f"⟩ kyC7)
      (HashableStatement.Equal kyC7 kyC7)
      [(NativeOperation.TransitiveEqualFromStatements,
        [HashableStatement.Equal kyC7 kxC7, HashableStatement.Equal kxC7 kyC7],
        HashableStatement.Equal kyC7 kyC7)] ∧
    HashableStatement.Equal kyC7 kxC7 ∉ [HashableStatement.Equal kxC7 kyC7] := by
  constructor
  · have hbase : reachable_equal [HashableStatement.Equal kxC7 kyC7] kyC7 kxC7 [] :=
      reachable_equal_s.base_rev (List.mem_singleton.mpr rfl)
    have hreach : reachable_equal [HashableStatement.Equal kxC7 kyC7] kyC7 kyC7
        ([] ++ [(NativeOperation.TransitiveEqualFromStatements,
          [HashableStatement.Equal kyC7 kxC7, HashableStatement.Equal kxC7 kyC7],
          HashableStatement.Equal kyC7 kyC7)]) :=
      reachable_equal_s.step hbase (List.mem_singleton.mpr rfl)
        (by intro st hst; simp at hst)
    rw [List.nil_append] at hreach
    exact can_prove_s.via_equal (List.mem_singleton.mpr rfl)
      (connected_to_target_s.eq_reach (List.mem_singleton.mpr rfl) hreach rfl)
      (by decide)
  · intro hmem
    rw [List.mem_singleton] at hmem
    simp [kxC7, kyC7] at hmem

/-!
## C6: no transitive strict order
-/

/-- C6: when the fact set consists only of `Lt(X,Y)` and `Lt(Y,Z)` over
distinct keys, a `NotEqual` target whose wildcard side matches only `X` and whose
concrete side is `Z` is unprovable: the result set is empty.  (Strict-order
transitivity is not implemented.) -/
theorem c6_no_transitive_strict_order (hs : String → Int) (f : List HashableStatement)
    (w : WildcardAnchoredKey) (X Y Z : AnchoredKey)
    (hXY : X ≠ Y) (hYZ : Y ≠ Z) (hXZ : X ≠ Z)
    (hf : ∀ s ∈ f, s = HashableStatement.Lt X Y ∨ s = HashableStatement.Lt Y Z)
    (hmX : w.matches X = true)
    (hOnly : ∀ k : AnchoredKey, w.matches k = true → k = X) :
    ∀ (s : HashableStatement) (c : DeductionChain),
      ¬ can_prove hs f (WildcardStatement.NotEqual w Z) s c := by
  intro s c h
  cases h with
  | seeded hseed => exact hseed
  | direct ht _ _ _ => simp at ht
  | via_equal ht _ _ => simp at ht
  | via_gt ht _ _ => simp at ht
  | via_lt ht _ _ => simp at ht
  | via_contains ht _ _ => simp at ht
  | via_neq ht hconn hm =>
      rw [List.mem_singleton] at ht
      injection ht with hw hck
      subst hw
      cases hconn with
      | seeded hseed => exact hseed
      | eq_reach ht' _ _ => simp at ht'
      | gt_values ht' _ _ _ _ _ _ _ => simp at ht'
      | gt_known ht' _ _ _ => simp at ht'
      | lt_values ht' _ _ _ _ _ _ _ => simp at ht'
      | lt_known ht' _ _ _ => simp at ht'
      | contains_values ht' _ _ _ _ _ => simp at ht'
      | contains_known ht' _ _ _ => simp at ht'
      | neq_from_gt ht' hK _ _ =>
          rcases hf _ hK with h1 | h1 <;> simp at h1
      | neq_known ht' hK _ _ =>
          rcases hf _ hK with h1 | h1 <;> simp at h1
      | neq_from_lt ht' hK hm' hk =>
          rw [List.mem_singleton] at ht'
          injection ht' with hw' hck'
          subst hw'
          rcases hf _ hK with h1 | h1
          · injection h1 with hfk hmk
            exact hYZ (by rw [← hmk]; exact hk.trans hck')
          · injection h1 with hfk hmk
            have h2 : Y = X := by rw [← hfk]; exact hOnly _ hm'
            exact hXY h2.symm

/-- Witness facts for C6: exactly `Lt akA akB` and `Lt akB akC`. -/
def fC6 : List HashableStatement :=
  [HashableStatement.Lt akA akB, HashableStatement.Lt akB akC]

/-- A wildcard matching only `akA` (exact origin and field name). -/
def wC6 : WildcardAnchoredKey := ⟨WildcardId.Concrete ⟨0, 1⟩, "a"⟩

/-- Witness for C6 at the concrete two-fact scenario. -/
theorem c6_no_transitive_strict_order_witness :
    ¬ can_prove hs0 fC6 (WildcardStatement.NotEqual wC6 akC)
      (HashableStatement.NotEqual akA akC) [] :=
  c6_no_transitive_strict_order hs0 fC6 wC6 akA akB akC
    (by decide) (by decide) (by decide)
    (by
      intro s hsm
      rcases List.mem_cons.mp hsm with h | h
      · exact Or.inl h
      · exact Or.inr (List.mem_singleton.mp h))
    (by decide)
    (by
      intro k hk
      obtain ⟨o, key⟩ := k
      simp only [WildcardAnchoredKey.matches, wC6, Bool.and_eq_true, beq_iff_eq] at hk
      obtain ⟨h1, h2⟩ := hk
      simp only [akA, AnchoredKey.mk.injEq]
      exact ⟨h1.symm, h2.symm⟩)
    (HashableStatement.NotEqual akA akC) []

/-!
## C9: non-integer operands never appear in Gt/Lt value-comparison steps
-/

lemma reachable_step_tags {f : List HashableStatement} {x y : AnchoredKey}
    {c : DeductionChain} (h : reachable_equal f x y c) :
    ∀ st ∈ c, st.1 = NativeOperation.TransitiveEqualFromStatements := by
  induction h with
  | seeded hseed => exact hseed.elim
  | base _ => intro st hst; simp at hst
  | base_rev _ => intro st hst; simp at hst
  | step _ _ _ ih =>
      intro st hst
      rcases List.mem_append.mp hst with h1 | h1
      · exact ih st h1
      · rw [List.mem_singleton] at h1
        rw [h1]

lemma connected_value_steps {hs : String → Int} {f : List HashableStatement}
    {t : WildcardStatement} {fk y : AnchoredKey} {c : DeductionChain}
    (h : connected_to_target hs f t fk y c) :
    ∀ st ∈ c,
      (st.1 = NativeOperation.GtFromEntries ∨ st.1 = NativeOperation.LtFromEntries) →
      ∃ (k1 k2 : AnchoredKey) (i1 i2 : Int),
        st.2.1 = [HashableStatement.ValueOf k1 (HashableValue.Int i1),
                  HashableStatement.ValueOf k2 (HashableValue.Int i2)] := by
  cases h with
  | seeded hseed => exact hseed.elim
  | eq_reach _ hr _ =>
      intro st hst hop
      have htag := reachable_step_tags hr st hst
      rcases hop with h1 | h1 <;> rw [htag] at h1 <;> simp at h1
  | gt_values _ _ _ _ _ hv1 hv2 _ =>
      intro st hst _
      rw [List.mem_singleton] at hst
      subst hst
      exact ⟨_, _, _, _, by rw [hv1, hv2]⟩
  | gt_known _ _ _ _ => intro st hst; simp at hst
  | lt_values _ _ _ _ _ hv1 hv2 _ =>
      intro st hst _
      rw [List.mem_singleton] at hst
      subst hst
      exact ⟨_, _, _, _, by rw [hv1, hv2]⟩
  | lt_known _ _ _ _ => intro st hst; simp at hst
  | neq_from_gt _ _ _ _ =>
      intro st hst hop
      rw [List.mem_singleton] at hst
      subst hst
      rcases hop with h1 | h1 <;> simp at h1
  | neq_from_lt _ _ _ _ =>
      intro st hst hop
      rw [List.mem_singleton] at hst
      subst hst
      rcases hop with h1 | h1 <;> simp at h1
  | neq_known _ _ _ _ => intro st hst; simp at hst
  | contains_values _ _ _ _ _ _ =>
      intro st hst hop
      rw [List.mem_singleton] at hst
      subst hst
      rcases hop with h1 | h1 <;> simp at h1
  | contains_known _ _ _ _ => intro st hst; simp at hst

lemma can_prove_value_steps {hs : String → Int} {f : List HashableStatement}
    {t : WildcardStatement} {s : HashableStatement} {c : DeductionChain}
    (h : can_prove hs f t s c) :
    ∀ st ∈ c,
      (st.1 = NativeOperation.GtFromEntries ∨ st.1 = NativeOperation.LtFromEntries) →
      ∃ (k1 k2 : AnchoredKey) (i1 i2 : Int),
        st.2.1 = [HashableStatement.ValueOf k1 (HashableValue.Int i1),
                  HashableStatement.ValueOf k2 (HashableValue.Int i2)] := by
  cases h with
  | seeded hseed => exact hseed.elim
  | direct _ _ _ _ => intro st hst; simp at hst
  | via_equal _ hconn _ => exact connected_value_steps hconn
  | via_gt _ hconn _ => exact connected_value_steps hconn
  | via_lt _ hconn _ => exact connected_value_steps hconn
  | via_neq _ hconn _ => exact connected_value_steps hconn
  | via_contains _ hconn _ => exact connected_value_steps hconn

/-- C9: the Gt/Lt value-comparison rules are guarded by the integer variant on
both operands, so for any pair of known value-assignments of which at least one is
not an integer, no chain in any result of `prove` contains a `GtFromEntries` or
`LtFromEntries` step with those assignments as its premises — non-integer operands
are silently excluded, and `prove` (total here, as in the source: every rule is a
guarded match) still returns normally. -/
theorem c9_nonint_operands_excluded (hs : String → Int) (f : List HashableStatement)
    (t : WildcardStatement) (k1 k2 : AnchoredKey) (v1 v2 : HashableValue)
    (hk1 : known_value f k1 v1) (hk2 : known_value f k2 v2)
    (hni : (∀ i : Int, v1 ≠ HashableValue.Int i) ∨ (∀ i : Int, v2 ≠ HashableValue.Int i))
    (s : HashableStatement) (c : DeductionChain) (h : can_prove hs f t s c) :
    ∀ st ∈ c,
      (st.1 = NativeOperation.GtFromEntries ∨ st.1 = NativeOperation.LtFromEntries) →
      st.2.1 ≠ [HashableStatement.ValueOf k1 v1, HashableStatement.ValueOf k2 v2] := by
  intro st hst hop hEq
  obtain ⟨a, b, ia, ib, hprem⟩ := can_prove_value_steps h st hst hop
  rw [hEq] at hprem
  simp only [List.cons.injEq, HashableStatement.ValueOf.injEq, and_true] at hprem
  obtain ⟨⟨_, hv1⟩, ⟨_, hv2⟩⟩ := hprem
  rcases hni with hni | hni
  · exact hni ia hv1
  · exact hni ib hv2

/-- Facts for the C9 witness: two integer assignments and one string assignment. -/
def fC9 : List HashableStatement :=
  [HashableStatement.ValueOf akA (HashableValue.Int 10),
   HashableStatement.ValueOf akB (HashableValue.Int 5),
   HashableStatement.ValueOf akC (HashableValue.String "q")]

lemma c9_case_can_prove :
    can_prove hs0 fC9 (WildcardStatement.Gt ⟨WildcardId.Named "n", "a"⟩ akB)
      (HashableStatement.Gt akA akB)
      [(NativeOperation.GtFromEntries,
        [HashableStatement.ValueOf akA (HashableValue.Int 10),
         HashableStatement.ValueOf akB (HashableValue.Int 5)],
        HashableStatement.Gt akA akB)] :=
  can_prove_s.via_gt (List.mem_singleton.mpr rfl)
    (connected_to_target_s.gt_values (List.mem_singleton.mpr rfl)
      (by simp [known_value, fC9])
      (by simp [known_value, fC9])
      (by decide) rfl rfl rfl (by norm_num))
    (by decide)

/-- Witness for C9: in the concrete Gt-from-values result, the value-comparison
step's premises are not the (string-valued) assignment pair. -/
theorem c9_nonint_operands_excluded_witness :
    ((NativeOperation.GtFromEntries,
      [HashableStatement.ValueOf akA (HashableValue.Int 10),
       HashableStatement.ValueOf akB (HashableValue.Int 5)],
      HashableStatement.Gt akA akB) : DeductionStep).2.1
      ≠ [HashableStatement.ValueOf akC (HashableValue.String "q"),
         HashableStatement.ValueOf akB (HashableValue.Int 5)] :=
  c9_nonint_operands_excluded hs0 fC9
    (WildcardStatement.Gt ⟨WildcardId.Named "n", "a"⟩ akB)
    akC akB (HashableValue.String "q") (HashableValue.Int 5)
    (by simp [known_value, fC9]) (by simp [known_value, fC9])
    (Or.inl fun i h => HashableValue.noConfusion h)
    (HashableStatement.Gt akA akB) _ c9_case_can_prove
    _ (List.mem_singleton.mpr rfl) (Or.inl rfl)

/-!
## C4: symmetry of provable equality

The base rules symmetrise known `Equal` facts, but the step rule extends chains
only along `known_equal(y, z)` — the fact direction.  Hence a derived (non-empty
chain) equality need not be reversible: with facts `Equal(a, b)` and
`Equal(b, e)`, `Equal(a, e)` is provable but `Equal(e, a)` is not — the only
reachable triple ending at `a` is `(b, a, [])` and a wildcard for `e` does not
match `b`.  Symmetry does hold for equalities provable with an empty chain.
-/

/-- Key `a` (field "fa") of the C4 scenario. -/
def kaC4 : AnchoredKey := ⟨⟨0, 1⟩, "fa"⟩

/-- Key `b` (field "fb") of the C4 scenario. -/
def kbC4 : AnchoredKey := ⟨⟨0, 2⟩, "fb"⟩

/-- Key `e` (field "fe") of the C4 scenario. -/
def keC4 : AnchoredKey := ⟨⟨0, 3⟩, "fe"⟩

/-- Facts of the C4 scenario: `Equal(a, b)` and `Equal(b, e)`. -/
def fC4 : List HashableStatement :=
  [HashableStatement.Equal kaC4 kbC4, HashableStatement.Equal kbC4 keC4]

lemma mem_fC4 {x y : AnchoredKey} (h : HashableStatement.Equal x y ∈ fC4) :
    (x = kaC4 ∧ y = kbC4) ∨ (x = kbC4 ∧ y = keC4) := by
  rcases List.mem_cons.mp h with h1 | h1
  · injection h1 with ha hb
    exact Or.inl ⟨ha, hb⟩
  · rw [List.mem_singleton] at h1
    injection h1 with ha hb
    exact Or.inr ⟨ha, hb⟩

/-- In the C4 fact set, the only reachable triples whose right endpoint is `a`
start at `b` (the step rule follows `known_equal` only in the fact direction, and
no fact has right key `a`). -/
lemma c4_reach_inv {x y : AnchoredKey} {c : DeductionChain}
    (h : reachable_equal fC4 x y c) : y = kaC4 → x = kbC4 := by
  induction h with
  | seeded hseed => exact hseed.elim
  | base hK =>
      intro hy
      rcases mem_fC4 hK with ⟨_, hb⟩ | ⟨_, hb⟩
      · exact absurd (hb.symm.trans hy) (by decide)
      · exact absurd (hb.symm.trans hy) (by decide)
  | base_rev hK =>
      intro hy
      rcases mem_fC4 hK with ⟨ha, hb⟩ | ⟨ha, hb⟩
      · exact hb
      · exact absurd (ha.symm.trans hy) (by decide)
  | step hr he hguard ih =>
      intro hz
      rcases mem_fC4 he with ⟨_, hb⟩ | ⟨_, hb⟩
      · exact absurd (hb.symm.trans hz) (by decide)
      · exact absurd (hb.symm.trans hz) (by decide)

/-- Counterexample to **C4** as stated: with facts `Equal(a, b)`, `Equal(b, e)`,
the pair `(a, e)` is provable (wildcard side matching `a`, concrete side `e`) but
the reversed pair `(e, a)` is not provable with the reversed target — the result
set for the reversed target is empty. -/
theorem c4_symmetry_counterexample :
    (∃ c : DeductionChain,
      can_prove hs0 fC4 (WildcardStatement.Equal ⟨WildcardId.Named "v", "fa"⟩ keC4)
        (HashableStatement.Equal kaC4 keC4) c) ∧
    ∀ (s : HashableStatement) (c : DeductionChain),
      ¬ can_prove hs0 fC4 (WildcardStatement.Equal ⟨WildcardId.Named "v", "fe"⟩ kaC4) s c := by
  constructor
  · refine ⟨[(NativeOperation.TransitiveEqualFromStatements,
      [HashableStatement.Equal kaC4 kbC4, HashableStatement.Equal kbC4 keC4],
      HashableStatement.Equal kaC4 keC4)], ?_⟩
    have hbase : reachable_equal fC4 kaC4 kbC4 [] :=
      reachable_equal_s.base (by simp [known_equal, fC4])
    have hreach := reachable_equal_s.step hbase
      (by simp [known_equal, fC4] : known_equal fC4 kbC4 keC4)
      (by intro st hst; simp at hst)
    rw [List.nil_append] at hreach
    exact can_prove_s.via_equal (List.mem_singleton.mpr rfl)
      (connected_to_target_s.eq_reach (List.mem_singleton.mpr rfl) hreach rfl)
      (by decide)
  · intro s c h
    cases h with
    | seeded hseed => exact hseed
    | via_gt ht _ _ => simp at ht
    | via_lt ht _ _ => simp at ht
    | via_neq ht _ _ => simp at ht
    | via_contains ht _ _ => simp at ht
    | direct ht hK hm hc =>
        rw [List.mem_singleton] at ht
        injection ht with hw hck
        rcases mem_fC4 hK with ⟨_, hb⟩ | ⟨_, hb⟩
        · exact absurd (hck.symm.trans (hc.trans hb)) (by decide)
        · exact absurd (hck.symm.trans (hc.trans hb)) (by decide)
    | via_equal ht hconn hm =>
        rw [List.mem_singleton] at ht
        injection ht with hw hck
        subst hw
        cases hconn with
        | seeded hseed => exact hseed
        | gt_values ht' _ _ _ _ _ _ _ => simp at ht'
        | gt_known ht' _ _ _ => simp at ht'
        | lt_values ht' _ _ _ _ _ _ _ => simp at ht'
        | lt_known ht' _ _ _ => simp at ht'
        | neq_from_gt ht' _ _ _ => simp at ht'
        | neq_from_lt ht' _ _ _ => simp at ht'
        | neq_known ht' _ _ _ => simp at ht'
        | contains_values ht' _ _ _ _ _ => simp at ht'
        | contains_known ht' _ _ _ => simp at ht'
        | eq_reach ht' hr hy =>
            rw [List.mem_singleton] at ht'
            injection ht' with hw' hck'
            have hx := c4_reach_inv hr (hy.trans hck')
            rw [hx] at hm
            exact absurd hm (by decide)

/-- An empty-chain reachable triple comes from one of the two base rules: the pair
(or its reverse) is a known `Equal` fact. -/
lemma reachable_nil_inv {f : List HashableStatement} {x y : AnchoredKey}
    {c : DeductionChain} (h : reachable_equal f x y c) (hc : c = []) :
    HashableStatement.Equal x y ∈ f ∨ HashableStatement.Equal y x ∈ f := by
  cases h with
  | seeded hseed => exact hseed.elim
  | base hK => exact Or.inl hK
  | base_rev hK => exact Or.inr hK
  | step _ _ _ => simp at hc

/-- C4 (amended): symmetry holds for equalities provable with an *empty*
deduction chain — if `Equal(A, E)` is provable with chain `[]` (so `Equal(A, E)`
or `Equal(E, A)` is a directly known fact), then for any reversed target whose
wildcard side matches `E`, `Equal(E, A)` is provable (also with an empty chain).
For derived equalities (non-empty chains) symmetry fails, see the
counterexample. -/
theorem c4_symmetry_amended (hs : String → Int) (f : List HashableStatement)
    (w w' : WildcardAnchoredKey) (A E : AnchoredKey)
    (h : can_prove hs f (WildcardStatement.Equal w E) (HashableStatement.Equal A E) [])
    (hm' : w'.matches E = true) :
    can_prove hs f (WildcardStatement.Equal w' A) (HashableStatement.Equal E A) [] := by
  have hmem : HashableStatement.Equal A E ∈ f ∨ HashableStatement.Equal E A ∈ f := by
    cases h with
    | seeded hseed => exact hseed.elim
    | direct _ hK _ _ => exact Or.inl hK
    | via_equal ht hconn hm =>
        cases hconn with
        | seeded hseed => exact hseed.elim
        | gt_known ht' _ _ _ => simp at ht'
        | lt_known ht' _ _ _ => simp at ht'
        | neq_known ht' _ _ _ => simp at ht'
        | contains_known ht' _ _ _ => simp at ht'
        | eq_reach ht' hr hy =>
            rw [List.mem_singleton] at ht'
            injection ht' with hw' hck'
            rw [hy, hck'] at hr
            exact reachable_nil_inv hr rfl
  have hrev : reachable_equal f E A [] := by
    rcases hmem with hmem | hmem
    · exact reachable_equal_s.base_rev hmem
    · exact reachable_equal_s.base hmem
  exact can_prove_s.via_equal (List.mem_singleton.mpr rfl)
    (connected_to_target_s.eq_reach (List.mem_singleton.mpr rfl) hrev rfl) hm'

/-- Witness for the amended C4 at the single fact `Equal kaC4 keC4`. -/
theorem c4_symmetry_amended_witness :
    can_prove hs0 [HashableStatement.Equal kaC4 keC4]
      (WildcardStatement.Equal ⟨WildcardId.Named "v", "fe"⟩ kaC4)
      (HashableStatement.Equal keC4 kaC4) [] :=
  c4_symmetry_amended hs0 [HashableStatement.Equal kaC4 keC4]
    ⟨WildcardId.Named "v", "fa"⟩ ⟨WildcardId.Named "v", "fe"⟩ kaC4 keC4
    (can_prove_s.direct (List.mem_singleton.mpr rfl) (List.mem_singleton.mpr rfl)
      (by decide) rfl)
    (by decide)

/-!
## C2: equality/hash of container values

`HashableValue` derives `PartialEq` (per-variant structural equality, delegating
container payloads to pod2's container equality, which the spec specifies as
commitment-based — modelled so in `hvBeq`).  Its `Hash` implementation in
`src/types.rs` hashes the discriminant first and then the payload only for the
scalar variants; for `Dictionary`, `Set` and `Array` nothing further is hashed —
the source marks this with `// TODO: Implement hash for Dictionary, Set, and
Array`.  `hashRepr` records exactly the data fed to the hasher, so two values
hash equal precisely when their `hashRepr`s agree.
-/

/-- One item fed to the hasher. -/
inductive HashToken where
  | str (s : String)
  | int (i : Int)
  | bool (b : Bool)
deriving DecidableEq, Repr

/-- Embedding of `impl Hash for HashableValue` from `src/types.rs`: discriminant (by source
variant order: String 0, Int 1, Bool 2, Dictionary 3, Set 4, Array 5), then the
payload for scalar variants only. -/
def hashRepr : HashableValue → Nat × List HashToken
  | HashableValue.String s => (0, [HashToken.str s])
  | HashableValue.Int i => (1, [HashToken.int i])
  | HashableValue.Bool b => (2, [HashToken.bool b])
  | HashableValue.Dictionary _ => (3, [])
  | HashableValue.Set _ => (4, [])
  | HashableValue.Array _ => (5, [])

/-- Embedding of `#[derive(PartialEq)]` for `HashableValue`: same variant with equal payloads.
Modelled from the spec: for the three container variants the payload comparison is
pod2's container equality — two container values are equal as equality keys iff
their commitments match. -/
def hvBeq : HashableValue → HashableValue → Bool
  | HashableValue.String a, HashableValue.String b => a == b
  | HashableValue.Int a, HashableValue.Int b => a == b
  | HashableValue.Bool a, HashableValue.Bool b => a == b
  | HashableValue.Dictionary a, HashableValue.Dictionary b => a.commit == b.commit
  | HashableValue.Set a, HashableValue.Set b => a.commit == b.commit
  | HashableValue.Array a, HashableValue.Array b => a.commit == b.commit
  | _, _ => false

/-- The commitment carried by a container value (`none` for scalars). -/
def commitmentOf : HashableValue → Option Int
  | HashableValue.Dictionary d => some d.commit
  | HashableValue.Set s => some s.commit
  | HashableValue.Array a => some a.commit
  | _ => none

/-- C2 fails on the hashing side: the two array values `Array([1], commit 5)`
and `Array([2], commit 7)` have different commitments (and are unequal), yet they
feed identical data to the hasher — the `Hash` implementation ignores container
commitments entirely (the `TODO` in `src/types.rs`), so "hash equal iff
commitments match" does not hold. -/
theorem c2_container_hash_ignores_commitment :
    hashRepr (HashableValue.Array ⟨[1], 5⟩) = hashRepr (HashableValue.Array ⟨[2], 7⟩) ∧
    commitmentOf (HashableValue.Array ⟨[1], 5⟩) ≠ commitmentOf (HashableValue.Array ⟨[2], 7⟩) ∧
    hvBeq (HashableValue.Array ⟨[1], 5⟩) (HashableValue.Array ⟨[2], 7⟩) = false := by
  refine ⟨rfl, ?_, rfl⟩
  simp [commitmentOf]

/-!
## C8: containment test semantics
-/

/-- C8: the containment check succeeds exactly when the container is an array
with some element equal (under the canonical per-element representation) to the
candidate, or a set whose membership test answers `some true`; every dictionary
and every scalar "container" yields `false` (the function is total — never an
error), and a set membership test that errors (`none`) is treated as `false`. -/
theorem c8_check_contains_semantics (hs : String → Int) :
    (∀ container contained : HashableValue,
      check_contains hs container contained = true ↔
        ((∃ arr : MArray, container = HashableValue.Array arr ∧
            to_value hs contained ∈ arr.elems) ∨
         (∃ st : MSet, container = HashableValue.Set st ∧
            st.mem (to_value hs contained) = some true))) ∧
    (∀ (d : MDict) (v : HashableValue),
      check_contains hs (HashableValue.Dictionary d) v = false) ∧
    (∀ (i : Int) (v : HashableValue), check_contains hs (HashableValue.Int i) v = false) ∧
    (∀ (s : String) (v : HashableValue), check_contains hs (HashableValue.String s) v = false) ∧
    (∀ (b : Bool) (v : HashableValue), check_contains hs (HashableValue.Bool b) v = false) ∧
    (∀ (st : MSet) (v : HashableValue), st.mem (to_value hs v) = none →
      check_contains hs (HashableValue.Set st) v = false) := by
  refine ⟨?_, fun d v => rfl, fun i v => rfl, fun s v => rfl, fun b v => rfl, ?_⟩
  · intro container contained
    cases container with
    | Array arr => simp [check_contains]
    | Set st =>
        cases hmem : st.mem (to_value hs contained) with
        | none => simp [check_contains, hmem]
        | some b => cases b <;> simp [check_contains, hmem]
    | String s => simp [check_contains]
    | Int i => simp [check_contains]
    | Bool b => simp [check_contains]
    | Dictionary d => simp [check_contains]
  · intro st v hnone
    simp [check_contains, hnone]

/-- A set value whose membership test always errors. -/
def msetErr : MSet := ⟨fun _ => none, 0⟩

/-- Witness for C8: a set whose membership test errors is treated as
not containing the candidate. -/
theorem c8_check_contains_semantics_witness :
    check_contains hs0 (HashableValue.Set msetErr) (HashableValue.Int 3) = false :=
  (c8_check_contains_semantics hs0).2.2.2.2.2 msetErr (HashableValue.Int 3) rfl

/-!
## C10: `prove` is idempotent

`run` closes each relation under the rules starting from its current contents.
Closing an already-closed relation adds nothing (the closure is idempotent), so a
second `prove` with facts and target unchanged returns the identical result
relation.  (At this level relation contents are sets of tuples — the internal
vector ordering belongs to the external ascent crate, which only ever appends
tuples not already present, so an unchanged set also means an unchanged order.)
-/

lemma reachable_run_idem (f : List HashableStatement)
    (seed : AnchoredKey → AnchoredKey → DeductionChain → Prop) :
    reachable_equal_s f (reachable_equal_s f seed) = reachable_equal_s f seed := by
  funext x y c
  apply propext
  constructor
  · intro h
    induction h with
    | seeded hseed => exact hseed
    | base hK => exact reachable_equal_s.base hK
    | base_rev hK => exact reachable_equal_s.base_rev hK
    | step _ he hguard ih => exact reachable_equal_s.step ih he hguard
  · exact reachable_equal_s.seeded

lemma connected_run_idem (hs : String → Int) (f : List HashableStatement)
    (ts : List WildcardStatement)
    (reach : AnchoredKey → AnchoredKey → DeductionChain → Prop)
    (seed : AnchoredKey → AnchoredKey → DeductionChain → Prop) :
    connected_to_target_s hs f ts reach (connected_to_target_s hs f ts reach seed)
      = connected_to_target_s hs f ts reach seed := by
  funext x y c
  apply propext
  constructor
  · intro h
    cases h with
    | seeded hseed => exact hseed
    | eq_reach ht hr hy => exact connected_to_target_s.eq_reach ht hr hy
    | gt_values ht h1 h2 hm hk hv1 hv2 hgt =>
        exact connected_to_target_s.gt_values ht h1 h2 hm hk hv1 hv2 hgt
    | gt_known ht hK hm hk => exact connected_to_target_s.gt_known ht hK hm hk
    | lt_values ht h1 h2 hm hk hv1 hv2 hlt =>
        exact connected_to_target_s.lt_values ht h1 h2 hm hk hv1 hv2 hlt
    | lt_known ht hK hm hk => exact connected_to_target_s.lt_known ht hK hm hk
    | neq_from_gt ht hK hm hk => exact connected_to_target_s.neq_from_gt ht hK hm hk
    | neq_from_lt ht hK hm hk => exact connected_to_target_s.neq_from_lt ht hK hm hk
    | neq_known ht hK hm hk => exact connected_to_target_s.neq_known ht hK hm hk
    | contains_values ht h1 h2 hm hk hc =>
        exact connected_to_target_s.contains_values ht h1 h2 hm hk hc
    | contains_known ht hK hm hk => exact connected_to_target_s.contains_known ht hK hm hk
  · exact connected_to_target_s.seeded

lemma can_prove_run_idem (hs : String → Int) (f : List HashableStatement)
    (ts : List WildcardStatement)
    (conn : AnchoredKey → AnchoredKey → DeductionChain → Prop)
    (seed : HashableStatement → DeductionChain → Prop) :
    can_prove_s hs f ts conn (can_prove_s hs f ts conn seed)
      = can_prove_s hs f ts conn seed := by
  funext s c
  apply propext
  constructor
  · intro h
    cases h with
    | seeded hseed => exact hseed
    | direct ht hK hm hc => exact can_prove_s.direct ht hK hm hc
    | via_equal ht hconn hm => exact can_prove_s.via_equal ht hconn hm
    | via_gt ht hconn hm => exact can_prove_s.via_gt ht hconn hm
    | via_lt ht hconn hm => exact can_prove_s.via_lt ht hconn hm
    | via_neq ht hconn hm => exact can_prove_s.via_neq ht hconn hm
    | via_contains ht hconn hm => exact can_prove_s.via_contains ht hconn hm
  · exact can_prove_s.seeded

/-- C10: `prove` is idempotent — starting from any engine state, running
`prove`, then running `prove` again with the fact set and target unchanged,
returns a result relation identical to the first call's. -/
theorem c10_prove_idempotent (hs : String → Int) (e : DeductionEngine) :
    ((e.prove hs).1.prove hs).2 = (e.prove hs).2 := by
  show ((e.prog.run hs).run hs).can_prove_rel = (e.prog.run hs).can_prove_rel
  unfold AscentProgram.run
  simp only
  rw [reachable_run_idem, connected_run_idem, can_prove_run_idem]
